import Mathlib

/-!
# BrainSAIT OID utilities (`src/arduino/oid-qr-scanner/oid_utils.h`)

A shallow embedding of the OID parsing, validation and classification
functions of `oid_utils.h`, followed by theorems about them.

Conventions of the embedding:

* an Arduino `String` is a Lean `String`, read as its list of characters
  (one `Char` per `char` of the buffer);
* `int` is the 32-bit `int` of the ESP32 target selected in `config.h`;
  values are kept in `Int` and the one place where the range matters
  (`String::toInt`) saturates explicitly;
* `int components[20]` is a list of slots; `parseOID` starts from twenty
  slots, shown as `0` until they are written (in C they are indeterminate,
  and every read in the file is guarded by `depth`);
* `StaticJsonDocument<512>` is the document of ArduinoJson 6 with its
  512-byte pool: a 16-byte slot for each member and each array element, and
  each `String` value copied with its terminator; what does not fit is
  dropped (a slot) or left null (a copied value).
-/

namespace OidUtils

/-! ## Arduino `String` primitives used by the file -/

/-- `INT_MAX` of the 32-bit target. -/
def INT_MAX : Int := 2147483647

/-- `INT_MIN` of the 32-bit target. -/
def INT_MIN : Int := -2147483648

/-- `String::length()`. -/
def strLength (s : String) : Nat := s.data.length

/-- `String::operator[]` (const): the character at `index`, or `'\0'` when
`index` is not below the length. -/
def charAt (s : String) (index : Nat) : Char := s.data.getD index (Char.ofNat 0)

/-- `String::substring(left, right)`: swaps the bounds when `left > right`,
returns the empty string when the left bound is not below the length, and
clips the right bound to the length. -/
def substring (s : String) (left right : Nat) : String :=
  let l := if left > right then right else left
  let r := if left > right then left else right
  if l ≥ strLength s then ""
  else ⟨(s.data.drop l).take (min r (strLength s) - l)⟩

/-- `isDigit(c)` of Arduino, that is `isdigit` of the C locale. -/
def isDigit (c : Char) : Bool := decide ('0' ≤ c ∧ c ≤ '9')

/-- `isspace` of the C locale: space, `\t`, `\n`, `\v`, `\f`, `\r`. -/
def isSpace (c : Char) : Bool :=
  c = ' ' || c = '\t' || c = '\n' || c = Char.ofNat 11 || c = Char.ofNat 12 || c = '\r'

/-- The value of a decimal digit character. -/
def digitValue (c : Char) : Nat := c.toNat - '0'.toNat

/-- The digit loop of `strtol` in base 10: consumes the leading digits and
stops at the first other character. -/
def atolDigits : Nat → List Char → Nat
  | acc, [] => acc
  | acc, c :: cs => if isDigit c then atolDigits (acc * 10 + digitValue c) cs else acc

/-- Saturation of `strtol` to the range of the 32-bit `long`/`int`. -/
def clampInt (v : Int) : Int :=
  if v > INT_MAX then INT_MAX else if v < INT_MIN then INT_MIN else v

/-- `atol` as `String::toInt` calls it (`strtol(buf, NULL, 10)`): skip
leading white space, read an optional sign, then the leading digits; a text
with no leading number gives `0`, a value out of range saturates. -/
def atol (cs : List Char) : Int :=
  match cs.dropWhile isSpace with
  | '-' :: ds => clampInt (-(atolDigits 0 ds : Int))
  | '+' :: ds => clampInt (atolDigits 0 ds)
  | ds => clampInt (atolDigits 0 ds)

/-- `String::toInt()`, stored into an `int`. -/
def toInt (s : String) : Int := atol s.data

/-- `String::startsWith(prefix)`. -/
def startsWith (s p : String) : Bool := p.data.isPrefixOf s.data

/-- Scan of `String::lastIndexOf(ch)`: the index of the last occurrence seen
so far, `best`, updated while walking the characters from index `i`. -/
def lastIndexOfFrom (ch : Char) : List Char → Nat → Int → Int
  | [], _, best => best
  | c :: cs, i, best => lastIndexOfFrom ch cs (i + 1) (if c = ch then (i : Int) else best)

/-- `String::lastIndexOf(ch)`: the index of the last occurrence of `ch`, or
`-1` when there is none. -/
def lastIndexOf (s : String) (ch : Char) : Int := lastIndexOfFrom ch s.data 0 (-1)

/-- The decimal digits of a natural number, most significant first (the
digit loop of `itoa`); `fuel` bounds the number of digits produced. -/
def utoaDigits : Nat → Nat → List Char → List Char
  | 0, _, acc => acc
  | fuel + 1, n, acc =>
    if n < 10 then Nat.digitChar n :: acc
    else utoaDigits fuel (n / 10) (Nat.digitChar (n % 10) :: acc)

/-- `String(int)`: the decimal form of an `int` (`itoa` in base 10), with a
leading `-` for a negative value. -/
def intToString (v : Int) : String :=
  if v < 0 then ⟨'-' :: utoaDigits (v.natAbs + 1) v.natAbs []⟩
  else ⟨utoaDigits (v.natAbs + 1) v.natAbs []⟩

/-! ## The `OID` structure and `parseOID` -/

/-- The literal `BRAINSAIT_ROOT`. -/
def BRAINSAIT_ROOT : String := "1.3.6.1.4.1.61026"

/-- `struct OID`. -/
structure OID where
  fullPath : String
  components : List Int
  depth : Int
  isBrainSAIT : Bool
  branchType : Int
  name : String
  description : String
  status : String
  nodeType : String
  deriving DecidableEq

/-- Read of `oid.components[i]`. -/
def OID.arc (oid : OID) (i : Nat) : Int := oid.components.getD i 0

/-- The state of the parsing loop of `parseOID`: the local `start` and the
`OID` under construction. -/
structure ParseState where
  start : Nat
  oid : OID

/-- The body of the parsing loop of `parseOID` at index `i`. -/
def parseStep (oidString : String) (i : Nat) (st : ParseState) : ParseState :=
  if i = strLength oidString ∨ charAt oidString i = '.' then
    let component := substring oidString st.start i
    { start := i + 1,
      oid := { st.oid with
        components := st.oid.components.set st.oid.depth.toNat (toInt component),
        depth := st.oid.depth + 1 } }
  else st

/-- The parsing loop of `parseOID`,
`for (i = ...; i <= oidString.length() && oid.depth < 20; i++)`, from index
`i`; `fuel` bounds the number of iterations. -/
def parseLoop (oidString : String) : Nat → Nat → ParseState → ParseState
  | 0, _, st => st
  | fuel + 1, i, st =>
    if i ≤ strLength oidString ∧ st.oid.depth < 20 then
      parseLoop oidString fuel (i + 1) (parseStep oidString i st)
    else st

/-- The namespace check at the end of `parseOID`. -/
def checkNamespace (oid : OID) : OID :=
  if oid.depth ≥ 7 ∧ oid.arc 0 = 1 ∧ oid.arc 1 = 3 ∧ oid.arc 2 = 6 ∧ oid.arc 3 = 1 ∧
      oid.arc 4 = 4 ∧ oid.arc 5 = 1 ∧ oid.arc 6 = 61026 then
    if oid.depth > 7 then { oid with isBrainSAIT := true, branchType := oid.arc 7 }
    else { oid with isBrainSAIT := true }
  else oid

/-- `parseOID`. The loop runs at most `length + 1` times, which is the fuel
given to `parseLoop`. -/
def parseOID (oidString : String) : OID :=
  let oid : OID :=
    { fullPath := oidString, components := List.replicate 20 0, depth := 0,
      isBrainSAIT := false, branchType := 0,
      name := "", description := "", status := "", nodeType := "" }
  checkNamespace (parseLoop oidString (strLength oidString + 1) 0 ⟨0, oid⟩).oid

/-! ## Validation and the cheap namespace test -/

/-- One iteration of the loop of `validateOIDFormat` on the character `c` at
index `i`: `none` when the function returns `false` there, otherwise the
new value of the flag `lastWasDot`. -/
def validateStep (len : Nat) (i : Nat) (c : Char) (lastWasDot : Bool) : Option Bool :=
  if c = '.' then
    if lastWasDot ∨ i = 0 ∨ i = len - 1 then none else some true
  else if isDigit c then some false
  else none

/-- The loop of `validateOIDFormat` over the characters from index `i`. -/
def validateLoop (len : Nat) : List Char → Nat → Bool → Bool
  | [], _, _ => true
  | c :: cs, i, lastWasDot =>
    match validateStep len i c lastWasDot with
    | none => false
    | some flag => validateLoop len cs (i + 1) flag

/-- `validateOIDFormat`. -/
def validateOIDFormat (oidString : String) : Bool :=
  if strLength oidString = 0 then false
  else if !isDigit (charAt oidString 0) then false
  else validateLoop (strLength oidString) oidString.data 0 false

/-- `isBrainSAITOID`. -/
def isBrainSAITOID (oidString : String) : Bool := startsWith oidString BRAINSAIT_ROOT

/-! ## Classification lookups -/

/-- `getBranchName`. -/
def getBranchName (oid : OID) : String :=
  if !oid.isBrainSAIT || oid.depth < 8 then "Unknown"
  else if oid.branchType = 1 then "Geographic Operations"
  else if oid.branchType = 2 then "Organization"
  else if oid.branchType = 3 then "Products & Services"
  else if oid.branchType = 4 then "Infrastructure"
  else "Unknown Branch"

/-- `getProductSubBranch`. -/
def getProductSubBranch (oid : OID) : String :=
  if !oid.isBrainSAIT || oid.branchType ≠ 3 || oid.depth < 9 then ""
  else if oid.arc 8 = 1 then "Content Management System"
  else if oid.arc 8 = 2 then "Healthcare Platform"
  else if oid.arc 8 = 3 then "AI Agent Framework"
  else "Unknown Product"

/-- `getHealthcareService`. -/
def getHealthcareService (oid : OID) : String :=
  if !oid.isBrainSAIT || oid.branchType ≠ 3 || oid.depth < 10 then ""
  else if oid.arc 8 ≠ 2 then ""
  else if oid.arc 9 = 1 then "AI Normalizer Service"
  else if oid.arc 9 = 2 then "Signer Microservice"
  else if oid.arc 9 = 3 then "NPHIES Connector"
  else "Unknown Service"

/-- `getRegistrationAuthority`. -/
def getRegistrationAuthority (oid : OID) : String :=
  if oid.depth < 1 then "Unknown"
  else if oid.arc 0 = 0 then "ITU-T"
  else if oid.arc 0 = 1 then "ISO"
  else if oid.arc 0 = 2 then "Joint ISO/ITU-T"
  else "Unknown"

/-! ## Derived paths -/

/-- `getParentOID`. -/
def getParentOID (oidString : String) : String :=
  let lastDot := lastIndexOf oidString '.'
  if lastDot > 0 then substring oidString 0 lastDot.toNat else ""

/-- `createChildOID`. -/
def createChildOID (parentOID : String) (childArc : Int) : String :=
  parentOID ++ "." ++ intToString childArc

/-- The dot-separated components of a string: the pieces between its dots
(a string with `n` dots has `n + 1` components, some of them possibly
empty). -/
def dotComponents (s : String) : List (List Char) := s.data.splitOn '.'

/-- The decimal integer value of a run of digits. -/
def decimalValue (cs : List Char) : Nat :=
  cs.foldl (fun acc c => acc * 10 + digitValue c) 0

/-- A run of characters is the canonical decimal form of a number: it is a
non-empty run of digits and has no leading zero unless it is `0` itself. -/
def isCanonicalDecimal (cs : List Char) : Prop :=
  cs ≠ [] ∧ (∀ c ∈ cs, isDigit c = true) ∧ (cs.head? = some '0' → cs = ['0'])

/-- The text `atol` reads its digits from: what follows the leading white
space and one optional sign. -/
def afterSign (cs : List Char) : List Char :=
  match cs.dropWhile isSpace with
  | '-' :: ds => ds
  | '+' :: ds => ds
  | ds => ds

/-- A text has leading numeric content when, after optional white space and
an optional sign, it starts with a digit. -/
def hasLeadingNumber (cs : List Char) : Bool :=
  match (afterSign cs).head? with
  | some c => isDigit c
  | none => false

/-! ## Label tables and sentinel values -/

/-- The labels of the branch table of `getBranchName`. -/
def branchLabels : List String :=
  ["Geographic Operations", "Organization", "Products & Services", "Infrastructure"]

/-- The labels of the product table of `getProductSubBranch`. -/
def productLabels : List String :=
  ["Content Management System", "Healthcare Platform", "AI Agent Framework"]

/-- The labels of the service table of `getHealthcareService`. -/
def serviceLabels : List String :=
  ["AI Normalizer Service", "Signer Microservice", "NPHIES Connector"]

/-- The labels of the authority table of `getRegistrationAuthority`. -/
def authorityLabels : List String := ["ITU-T", "ISO", "Joint ISO/ITU-T"]

/-- The sentinel values the specification lists for an unclassified OID. -/
def listedSentinels : List String := ["Unknown", "Unknown Branch", "Unknown Branch/Service", ""]

/-- The listed sentinel values together with the two further ones the
lookups return, `"Unknown Product"` and `"Unknown Service"`. -/
def allSentinels : List String :=
  ["Unknown", "Unknown Branch", "Unknown Branch/Service", "", "Unknown Product",
    "Unknown Service"]

/-! ## Lemmas on the `String` primitives and on `parseOID` -/

/-- When `pre` is the text before index `pre.length`, the substring from `start`
to that index is `pre` without its first `start` characters. -/
theorem substring_pre (s : String) (pre rest : List Char) (start : Nat)
    (hs : s.data = pre ++ rest) (hle : start ≤ pre.length) :
    (substring s start pre.length).data = pre.drop start := by
  unfold substring strLength
  have h1 : ¬ start > pre.length := by omega
  simp only [h1, if_false, hs, List.length_append]
  split
  · have : start = pre.length ∧ rest = [] := by
      constructor
      · omega
      · apply List.eq_nil_of_length_eq_zero; omega
    simp [this.1]
  · simp only [List.drop_append_of_le_length hle]
    rw [List.take_append_of_le_length (by simp)]
    apply List.take_of_length_le
    simp

/-- The character at the index where `pre` ends is the one that follows `pre`. -/
theorem charAt_pre (s : String) (pre rest : List Char) (c : Char)
    (hs : s.data = pre ++ c :: rest) : charAt s pre.length = c := by
  unfold charAt; rw [hs, List.getD_eq_getElem?_getD, List.getElem?_append_right (le_refl _)]; simp

/-- A text without a dot is its own single component. -/
theorem split_no_dot (cur : List Char) (h : ∀ c ∈ cur, c ≠ '.') :
    cur.splitOn '.' = [cur] := by
  apply List.splitOnP_eq_single
  intro x hx
  simpa using h x hx

/-- Splitting at the first dot: the dot-free text before it is the first
component. -/
theorem split_first (cur rest : List Char) (h : ∀ c ∈ cur, c ≠ '.') :
    (cur ++ '.' :: rest).splitOn '.' = cur :: rest.splitOn '.' := by
  apply List.splitOnP_first
  · intro x hx
    simpa using h x hx
  · simp

/-- The parsing loop stops as soon as its condition fails, whatever fuel is
left. -/
theorem parseLoop_done (s : String) (fuel i : Nat) (st : ParseState)
    (h : ¬ (i ≤ strLength s ∧ st.oid.depth < 20)) : parseLoop s fuel i st = st := by
  cases fuel with
  | zero => rfl
  | succ f => simp only [parseLoop, h, if_false]

/-- Writing the slot after the written ones extends them by one value. -/
theorem set_written (written : List Int) (v : Int) (n : Nat) (hn : written.length + n = 20)
    (hpos : 0 < n) :
    (written ++ List.replicate n 0).set written.length v
      = (written ++ [v]) ++ List.replicate (n - 1) 0 := by
  obtain ⟨m, rfl⟩ : ∃ m, n = m + 1 := ⟨n - 1, by omega⟩
  simp [List.replicate_succ]

/-- Invariant of the parsing loop. At index `pre.length`, with `written` the
arcs stored so far and the text since `start` free of dots, the loop (given
fuel for the remaining characters) appends the conversions of the
components of the remaining text, as many as fit in the 20 slots. -/
theorem parseLoop_spec (s : String) (rest : List Char) :
    ∀ (pre : List Char) (st : ParseState) (fuel : Nat) (written : List Int),
      s.data = pre ++ rest → st.start ≤ pre.length →
      (∀ c ∈ pre.drop st.start, c ≠ '.') →
      rest.length + 1 ≤ fuel → st.oid.depth = (written.length : Int) →
      written.length ≤ 20 →
      st.oid.components = written ++ List.replicate (20 - written.length) 0 →
      (parseLoop s fuel pre.length st).oid =
        { st.oid with
          depth := ((written ++ (((pre.drop st.start ++ rest).splitOn '.').take
            (20 - written.length)).map atol).length : Nat),
          components := (written ++ (((pre.drop st.start ++ rest).splitOn '.').take
            (20 - written.length)).map atol) ++ List.replicate (20 - (written ++
              (((pre.drop st.start ++ rest).splitOn '.').take
                (20 - written.length)).map atol).length) 0 } := by
  induction rest with
  | nil =>
    intro pre st fuel written hs hle hnd hfuel hd hw hc
    by_cases hfull : written.length = 20
    · rw [parseLoop_done s fuel _ st (by rw [hd]; omega)]
      cases st with
      | mk start oid =>
        cases oid
        simp_all
    · obtain ⟨f, rfl⟩ : ∃ f, fuel = f + 1 := ⟨fuel - 1, by omega⟩
      have hlen : strLength s = pre.length := by simp [strLength, hs]
      have hcond : pre.length ≤ strLength s ∧ st.oid.depth < 20 := by
        rw [hd, hlen]; omega
      rw [parseLoop, if_pos hcond, parseLoop_done]
      · have hsub := substring_pre s pre [] st.start hs hle
        simp only [parseStep, hlen, true_or, if_true]
        rw [List.append_nil, split_no_dot _ hnd]
        have h1 : List.take (20 - written.length) [List.drop st.start pre]
            = [List.drop st.start pre] := by
          obtain ⟨m, hm⟩ : ∃ m, 20 - written.length = m + 1 :=
            ⟨20 - written.length - 1, by omega⟩
          rw [hm]; simp
        rw [h1, hc, hd]
        simp only [Int.toNat_ofNat, List.map_cons, List.map_nil]
        rw [set_written written _ _ (by omega) (by omega)]
        simp [toInt, hsub]
        omega
      · simp only [parseStep, hlen, true_or, if_true]
        omega
  | cons c rest ih =>
    intro pre st fuel written hs hle hnd hfuel hd hw hc
    by_cases hfull : written.length = 20
    · rw [parseLoop_done s fuel _ st (by rw [hd]; omega)]
      cases st with
      | mk start oid =>
        cases oid
        simp_all
    · obtain ⟨f, rfl⟩ : ∃ f, fuel = f + 1 := ⟨fuel - 1, by omega⟩
      have hlen : strLength s = pre.length + (rest.length + 1) := by
        simp [strLength, hs]
      have hcond : pre.length ≤ strLength s ∧ st.oid.depth < 20 := by
        rw [hd, hlen]; omega
      have hne : ¬ pre.length = strLength s := by omega
      have hch := charAt_pre s pre rest c hs
      have hs2 : s.data = (pre ++ [c]) ++ rest := by simp [hs]
      have hlen2 : (pre ++ [c]).length = pre.length + 1 := by simp
      rw [parseLoop, if_pos hcond, ← hlen2]
      by_cases hdot : c = '.'
      · subst hdot
        have hsub := substring_pre s pre ('.' :: rest) st.start hs hle
        have hstep : parseStep s pre.length st =
            { start := pre.length + 1,
              oid := { st.oid with
                components := (written ++ [atol (pre.drop st.start)]) ++
                  List.replicate (20 - (written ++ [atol (pre.drop st.start)]).length) 0,
                depth := ((written ++ [atol (pre.drop st.start)]).length : Nat) } } := by
          simp only [parseStep, hch, or_true, if_true]
          rw [hc, hd]
          simp only [Int.toNat_ofNat]
          rw [set_written written _ _ (by omega) (by omega)]
          simp [toInt, hsub]
          omega
        rw [hstep]
        have := ih (pre ++ ['.'])
          { start := pre.length + 1,
            oid := { st.oid with
              components := (written ++ [atol (pre.drop st.start)]) ++
                List.replicate (20 - (written ++ [atol (pre.drop st.start)]).length) 0,
              depth := ((written ++ [atol (pre.drop st.start)]).length : Nat) } }
          f (written ++ [atol (pre.drop st.start)]) hs2
          (by simp) (by simp) (by simp at hfuel ⊢; omega) rfl (by simp; omega) rfl
        rw [this]
        simp only [List.drop_append_of_le_length hle]
        rw [split_first _ _ hnd]
        obtain ⟨m, hm⟩ : ∃ m, 20 - written.length = m + 1 :=
          ⟨20 - written.length - 1, by omega⟩
        have hm2 : 20 - (written ++ [atol (pre.drop st.start)]).length = m := by
          simp; omega
        rw [hm, hm2]
        simp [List.drop_eq_nil_of_le]
      · have hstep : parseStep s pre.length st = st := by
          simp only [parseStep, hch, hne, hdot, or_self, if_false]
        rw [hstep]
        have hdrop : (pre ++ [c]).drop st.start = pre.drop st.start ++ [c] :=
          List.drop_append_of_le_length hle
        have := ih (pre ++ [c]) st f written hs2
          (by simp; omega)
          (by
            rw [hdrop]
            intro x hx
            rcases List.mem_append.1 hx with h | h
            · exact hnd x h
            · simp at h; rw [h]; exact hdot)
          (by simp at hfuel ⊢; omega) hd hw hc
        rw [this, hdrop]
        simp

theorem checkNamespace_components (o : OID) : (checkNamespace o).components = o.components := by
  unfold checkNamespace; split_ifs <;> rfl

theorem checkNamespace_depth (o : OID) : (checkNamespace o).depth = o.depth := by
  unfold checkNamespace; split_ifs <;> rfl

theorem checkNamespace_fullPath (o : OID) : (checkNamespace o).fullPath = o.fullPath := by
  unfold checkNamespace; split_ifs <;> rfl

theorem checkNamespace_arc (o : OID) (i : Nat) : (checkNamespace o).arc i = o.arc i := by
  simp [OID.arc, checkNamespace_components]

/-- The parsing loop run from the start of the string, as `parseOID` runs it. -/
theorem parseLoop_main (s : String) (oid : OID) (h0 : oid.depth = 0)
    (hc : oid.components = List.replicate 20 0) :
    (parseLoop s (strLength s + 1) 0 ⟨0, oid⟩).oid =
      { oid with
        depth := ((((dotComponents s).take 20).map atol).length : Nat),
        components := ((dotComponents s).take 20).map atol ++
          List.replicate (20 - (((dotComponents s).take 20).map atol).length) 0 } := by
  have := parseLoop_spec s s.data [] ⟨0, oid⟩ (strLength s + 1) [] (by simp) (by simp)
    (by simp) (by simp [strLength]) (by simp [h0]) (by simp) (by simp [hc])
  simpa [dotComponents] using this

/-- The slots after `parseOID`: the conversions of the first 20 components,
then the slots never written. -/
theorem parseOID_components (s : String) :
    (parseOID s).components = ((dotComponents s).take 20).map atol ++
      List.replicate (20 - min 20 (dotComponents s).length) 0 := by
  unfold parseOID
  rw [checkNamespace_components, parseLoop_main _ _ rfl rfl]
  simp

/-- The depth after `parseOID`: the number of components, capped at 20. -/
theorem parseOID_depth (s : String) :
    (parseOID s).depth = (min 20 (dotComponents s).length : Nat) := by
  unfold parseOID
  rw [checkNamespace_depth, parseLoop_main _ _ rfl rfl]
  simp

/-- The field `fullPath` is the input, unchanged. -/
theorem parseOID_fullPath (s : String) : (parseOID s).fullPath = s := by
  unfold parseOID
  rw [checkNamespace_fullPath, parseLoop_main _ _ rfl rfl]

/-- Every arc below the depth is the conversion of its component. -/
theorem parseOID_arc (s : String) (i : Nat) (hi : i < min 20 (dotComponents s).length) :
    (parseOID s).arc i = atol ((dotComponents s).getD i []) := by
  unfold OID.arc
  rw [parseOID_components]
  have h1 : i < (((dotComponents s).take 20).map atol).length := by simpa using hi
  rw [List.getD_eq_getElem?_getD, List.getElem?_append_left h1]
  have h2 : i < (dotComponents s).length := by omega
  have h3 : i < 20 := by omega
  simp [List.getElem?_take, h3, List.getD_eq_getElem?_getD, List.getElem?_eq_getElem h2]

/-- The namespace flag and the branch type that `parseOID` computes, in terms
of the parsed arcs. -/
theorem parseOID_flags (s : String) :
    ((parseOID s).isBrainSAIT = true ↔
      ((parseOID s).depth ≥ 7 ∧ (parseOID s).arc 0 = 1 ∧ (parseOID s).arc 1 = 3 ∧
        (parseOID s).arc 2 = 6 ∧ (parseOID s).arc 3 = 1 ∧ (parseOID s).arc 4 = 4 ∧
        (parseOID s).arc 5 = 1 ∧ (parseOID s).arc 6 = 61026)) ∧
    (parseOID s).branchType =
      (if (parseOID s).isBrainSAIT = true ∧ (parseOID s).depth > 7 then (parseOID s).arc 7
       else 0) := by
  have hd := checkNamespace_depth
  have ha := checkNamespace_arc
  unfold parseOID at *
  simp only [hd, ha]
  rw [parseLoop_main _ _ rfl rfl]
  simp only []
  generalize hk : ((((dotComponents s).take 20).map atol).length : Nat) = k
  generalize hcs : ((dotComponents s).take 20).map atol ++
          List.replicate (20 - (((dotComponents s).take 20).map atol).length) 0 = cs
  unfold checkNamespace
  split_ifs with h1 h2 <;> simp_all [OID.arc]

theorem isDigit_ne_dot (c : Char) (h : isDigit c = true) : c ≠ '.' := by
  rintro rfl
  revert h
  decide

/-- What the loop of `validateOIDFormat` accepts, from index `i` with flag
`flag`. -/
theorem validateLoop_iff (len : Nat) (cs : List Char) :
    ∀ (i : Nat) (flag : Bool), i + cs.length = len →
      (validateLoop len cs i flag = true ↔
        (∀ c ∈ cs, isDigit c = true ∨ c = '.') ∧
        ((flag = true ∨ i = 0) → cs.head? ≠ some '.') ∧
        cs.getLast? ≠ some '.' ∧
        (∀ j, cs[j]? = some '.' → cs[j + 1]? ≠ some '.')) := by
  induction cs with
  | nil => intro i flag _; simp [validateLoop]
  | cons c rest ih =>
    intro i flag hlen
    simp only [List.length_cons] at hlen
    have ihr := fun flag2 => ih (i + 1) flag2 (by omega)
    by_cases hdot : c = '.'
    · subst hdot
      by_cases hbad : flag = true ∨ i = 0 ∨ i = len - 1
      · have hv : validateLoop len ('.' :: rest) i flag = false := by
          simp [validateLoop, validateStep, hbad]
        rw [hv]
        simp only [Bool.false_eq_true, false_iff, not_and]
        intro _ hhead hlast
        rcases hbad with h | h | h
        · exact absurd rfl (hhead (Or.inl h))
        · exact absurd rfl (hhead (Or.inr h))
        · have : rest = [] := List.eq_nil_of_length_eq_zero (by omega)
          subst this
          exact absurd rfl hlast
      · have hv : validateLoop len ('.' :: rest) i flag = validateLoop len rest (i + 1) true := by
          simp [validateLoop, validateStep, hbad]
        rw [hv, ihr true]
        have hne : rest ≠ [] := by
          intro h; subst h; simp at hlen; omega
        have hf : ¬ (flag = true ∨ i = 0) := by tauto
        obtain ⟨r, rs, rfl⟩ : ∃ r rs, rest = r :: rs := List.exists_cons_of_ne_nil hne
        constructor
        · rintro ⟨h1, h2, h3, h4⟩
          refine ⟨?_, ?_, ?_, ?_⟩
          · intro x hx
            rcases List.mem_cons.1 hx with h | h
            · exact Or.inr h
            · exact h1 x h
          · intro h; exact absurd h hf
          · simpa [List.getLast?_cons_cons] using h3
          · intro j
            cases j with
            | zero => intro _; simpa using h2 (Or.inl rfl)
            | succ j => simpa using h4 j
        · rintro ⟨h1, _, h3, h4⟩
          refine ⟨?_, ?_, ?_, ?_⟩
          · intro x hx; exact h1 x (List.mem_cons_of_mem _ hx)
          · intro _; simpa using h4 0 rfl
          · simpa [List.getLast?_cons_cons] using h3
          · intro j; simpa using h4 (j + 1)
    · by_cases hdig : isDigit c = true
      · have hv : validateLoop len (c :: rest) i flag = validateLoop len rest (i + 1) false := by
          simp [validateLoop, validateStep, hdot, hdig]
        rw [hv, ihr false]
        constructor
        · rintro ⟨h1, _, h3, h4⟩
          refine ⟨?_, ?_, ?_, ?_⟩
          · intro x hx
            rcases List.mem_cons.1 hx with h | h
            · exact Or.inl (h ▸ hdig)
            · exact h1 x h
          · intro _; simpa using hdot
          · cases rest with
            | nil => simpa using hdot
            | cons r rs => simpa [List.getLast?_cons_cons] using h3
          · intro j
            cases j with
            | zero => intro h; simp at h; exact absurd h hdot
            | succ j => simpa using h4 j
        · rintro ⟨h1, _, h3, h4⟩
          refine ⟨?_, ?_, ?_, ?_⟩
          · intro x hx; exact h1 x (List.mem_cons_of_mem _ hx)
          · intro h; simp at h
          · cases rest with
            | nil => simp
            | cons r rs => simpa [List.getLast?_cons_cons] using h3
          · intro j; simpa using h4 (j + 1)
      · have hv : validateLoop len (c :: rest) i flag = false := by
          simp [validateLoop, validateStep, hdot, hdig]
        rw [hv]
        simp only [Bool.false_eq_true, false_iff, not_and]
        intro h1
        rcases h1 c (List.mem_cons_self _ _) with h | h
        · exact absurd h hdig
        · exact absurd h hdot

/-- The lexical characterisation of `validateOIDFormat`. -/
theorem validateOIDFormat_iff (s : String) :
    validateOIDFormat s = true ↔
      (s.data ≠ [] ∧
       (∀ c ∈ s.data, isDigit c = true ∨ c = '.') ∧
       (∃ c, s.data.head? = some c ∧ isDigit c = true) ∧
       s.data.getLast? ≠ some '.' ∧
       (∀ j, s.data[j]? = some '.' → s.data[j + 1]? ≠ some '.')) := by
  unfold validateOIDFormat strLength charAt
  cases hs : s.data with
  | nil => simp
  | cons c rest =>
    simp only [List.length_cons, Nat.add_one_ne_zero, if_false, List.getD_cons_zero]
    by_cases hdig : isDigit c = true
    · simp only [hdig, Bool.not_true, Bool.false_eq_true, if_false]
      rw [validateLoop_iff _ _ 0 false (by simp)]
      have hdot := isDigit_ne_dot c hdig
      constructor
      · rintro ⟨h1, h2, h3, h4⟩
        exact ⟨by simp, h1, ⟨c, by simp, hdig⟩, h3, h4⟩
      · rintro ⟨_, h1, _, h3, h4⟩
        exact ⟨h1, fun _ => by simpa using hdot, h3, h4⟩
    · simp only [hdig, Bool.not_false, if_true, Bool.false_eq_true, false_iff]
      rintro ⟨_, _, ⟨d, hd1, hd2⟩, _⟩
      simp at hd1
      exact hdig (hd1 ▸ hd2)

theorem splitOn_ne_nil (cs : List Char) : cs.splitOn '.' ≠ [] :=
  List.splitOnP_ne_nil _ _

theorem splitOn_cons_dot (rest : List Char) :
    ('.' :: rest).splitOn '.' = [] :: rest.splitOn '.' := by
  simp [List.splitOn]

theorem splitOn_cons_ne (c : Char) (rest h : List Char) (t : List (List Char))
    (hc : c ≠ '.') (hr : rest.splitOn '.' = h :: t) :
    (c :: rest).splitOn '.' = (c :: h) :: t := by
  simp only [List.splitOn] at hr ⊢
  rw [List.splitOnP_cons, hr]
  simp [hc]

/-- The dot-separated components of a text whose characters are digits and
dots, which does not end in a dot and has no two adjacent dots: a run of
digits first, then non-empty runs of digits; and the first component is
non-empty exactly when the text is non-empty and does not start with a dot. -/
theorem splitOn_shape (cs : List Char) :
    ∀ (h : List Char) (t : List (List Char)), cs.splitOn '.' = h :: t →
      (((∀ c ∈ cs, isDigit c = true ∨ c = '.') ∧ cs.getLast? ≠ some '.' ∧
          (∀ j, cs[j]? = some '.' → cs[j + 1]? ≠ some '.')) ↔
        ((∀ c ∈ h, isDigit c = true) ∧
          ∀ comp ∈ t, comp ≠ [] ∧ ∀ c ∈ comp, isDigit c = true)) ∧
      (h ≠ [] ↔ (cs ≠ [] ∧ cs.head? ≠ some '.')) := by
  induction cs with
  | nil =>
    intro h t hs
    simp at hs
    obtain ⟨rfl, rfl⟩ := hs
    simp
  | cons c rest ih =>
    intro h t hs
    obtain ⟨h2, t2, hr⟩ : ∃ h2 t2, rest.splitOn '.' = h2 :: t2 :=
      List.exists_cons_of_ne_nil (splitOn_ne_nil rest)
    obtain ⟨ih1, ih2⟩ := ih h2 t2 hr
    by_cases hdot : c = '.'
    · subst hdot
      rw [splitOn_cons_dot, hr] at hs
      simp only [List.cons.injEq] at hs
      obtain ⟨rfl, rfl⟩ := hs
      refine ⟨?_, by simp⟩
      constructor
      · rintro ⟨h1, h3, h4⟩
        have hne : rest ≠ [] := by
          intro h; subst h; simp at h3
        have hhead : rest.head? ≠ some '.' := by
          have := h4 0 (by simp)
          cases rest with
          | nil => simp
          | cons r rs => simpa using this
        have hA := ih1.1 ⟨fun x hx => h1 x (List.mem_cons_of_mem _ hx),
          by
            obtain ⟨r, rs, rfl⟩ := List.exists_cons_of_ne_nil hne
            simpa [List.getLast?_cons_cons] using h3,
          fun j => by simpa using h4 (j + 1)⟩
        refine ⟨by simp, ?_⟩
        intro comp hcomp
        rcases List.mem_cons.1 hcomp with h | h
        · subst h
          exact ⟨ih2.2 ⟨hne, hhead⟩, hA.1⟩
        · exact hA.2 comp h
      · rintro ⟨_, hq⟩
        have hh2 := hq h2 (List.mem_cons_self _ _)
        obtain ⟨hne, hhead⟩ := ih2.1 hh2.1
        obtain ⟨a1, a3, a4⟩ := ih1.2 ⟨hh2.2, fun comp hc => hq comp (List.mem_cons_of_mem _ hc)⟩
        obtain ⟨r, rs, rfl⟩ := List.exists_cons_of_ne_nil hne
        refine ⟨?_, ?_, ?_⟩
        · intro x hx
          rcases List.mem_cons.1 hx with h | h
          · exact Or.inr h
          · exact a1 x h
        · simpa [List.getLast?_cons_cons] using a3
        · intro j
          cases j with
          | zero => intro _; simpa using hhead
          | succ j => simpa using a4 j
    · rw [splitOn_cons_ne c rest h2 t2 hdot hr] at hs
      simp only [List.cons.injEq] at hs
      obtain ⟨rfl, rfl⟩ := hs
      refine ⟨?_, by simp [hdot]⟩
      constructor
      · rintro ⟨h1, h3, h4⟩
        have hcd : isDigit c = true := by
          rcases h1 c (List.mem_cons_self _ _) with h | h
          · exact h
          · exact absurd h hdot
        have hA := ih1.1 ⟨fun x hx => h1 x (List.mem_cons_of_mem _ hx),
          by
            cases rest with
            | nil => simp
            | cons r rs => simpa [List.getLast?_cons_cons] using h3,
          fun j => by simpa using h4 (j + 1)⟩
        refine ⟨?_, hA.2⟩
        intro x hx
        rcases List.mem_cons.1 hx with h | h
        · exact h ▸ hcd
        · exact hA.1 x h
      · rintro ⟨hh, hq⟩
        obtain ⟨a1, a3, a4⟩ := ih1.2 ⟨fun x hx => hh x (List.mem_cons_of_mem _ hx), hq⟩
        refine ⟨?_, ?_, ?_⟩
        · intro x hx
          rcases List.mem_cons.1 hx with h | h
          · exact Or.inl (h ▸ hh c (List.mem_cons_self _ _))
          · exact a1 x h
        · cases rest with
          | nil => simpa using hdot
          | cons r rs => simpa [List.getLast?_cons_cons] using a3
        · intro j
          cases j with
          | zero => intro h; simp at h; exact absurd h hdot
          | succ j => simpa using a4 j

/-- The characterisation of `validateOIDFormat` by components. -/
theorem validateOIDFormat_iff_components (s : String) :
    validateOIDFormat s = true ↔
      ∀ comp ∈ dotComponents s, comp ≠ [] ∧ ∀ c ∈ comp, isDigit c = true := by
  rw [validateOIDFormat_iff]
  unfold dotComponents
  obtain ⟨h, t, hr⟩ : ∃ h t, s.data.splitOn '.' = h :: t :=
    List.exists_cons_of_ne_nil (splitOn_ne_nil _)
  obtain ⟨k1, k2⟩ := splitOn_shape s.data h t hr
  rw [hr]
  constructor
  · rintro ⟨hne, h1, ⟨c, hc1, hc2⟩, h3, h4⟩
    obtain ⟨q1, q2⟩ := k1.1 ⟨h1, h3, h4⟩
    have hh : h ≠ [] := k2.2 ⟨hne, by
      rw [hc1]; intro hh; simp at hh; exact isDigit_ne_dot c hc2 hh⟩
    intro comp hcomp
    rcases List.mem_cons.1 hcomp with e | e
    · subst e; exact ⟨hh, q1⟩
    · exact q2 comp e
  · intro hq
    obtain ⟨hh, hd⟩ := hq h (List.mem_cons_self _ _)
    obtain ⟨hne, hhead⟩ := k2.1 hh
    obtain ⟨a1, a3, a4⟩ := k1.2 ⟨hd, fun comp hc => hq comp (List.mem_cons_of_mem _ hc)⟩
    refine ⟨hne, a1, ?_, a3, a4⟩
    obtain ⟨r, rs, hrs⟩ := List.exists_cons_of_ne_nil hne
    refine ⟨r, by simp [hrs], ?_⟩
    rcases a1 r (by simp [hrs]) with e | e
    · exact e
    · subst e; simp [hrs] at hhead

/-- A character accepted by `isDigit` has a code from 48 to 57. -/
theorem digit_cases (c : Char) (h : isDigit c = true) :
    ∃ n, n < 10 ∧ c = Char.ofNat (n + 48) := by
  simp only [isDigit, decide_eq_true_eq] at h
  obtain ⟨h1, h2⟩ := h
  rw [Char.le_def] at h1 h2
  have h3 : 48 ≤ c.toNat := h1
  have h4 : c.toNat ≤ 57 := h2
  refine ⟨c.toNat - 48, by omega, ?_⟩
  rw [Nat.sub_add_cancel h3, Char.ofNat_toNat]

/-- Facts about a digit character, checked digit by digit. -/
theorem digit_facts (c : Char) (h : isDigit c = true) :
    isSpace c = false ∧ c ≠ '-' ∧ c ≠ '+' ∧ digitValue c < 10 ∧
      Nat.digitChar (digitValue c) = c ∧ (c ≠ '0' → 0 < digitValue c) := by
  obtain ⟨n, hn, rfl⟩ := digit_cases c h
  interval_cases n <;> decide

/-- On a run of digits the digit loop of `atol` computes the decimal value. -/
theorem atolDigits_eq (cs : List Char) (h : ∀ c ∈ cs, isDigit c = true) :
    ∀ acc, atolDigits acc cs = cs.foldl (fun a c => a * 10 + digitValue c) acc := by
  induction cs with
  | nil => intro acc; rfl
  | cons c rest ih =>
    intro acc
    simp only [atolDigits, h c (List.mem_cons_self _ _), if_true, List.foldl_cons]
    exact ih (fun x hx => h x (List.mem_cons_of_mem _ hx)) _

/-- On a run of digits `atol` is the decimal value, saturated. -/
theorem atol_of_digits (cs : List Char) (h : ∀ c ∈ cs, isDigit c = true) :
    atol cs = clampInt (decimalValue cs) := by
  have hd := atolDigits_eq cs h 0
  cases cs with
  | nil => rfl
  | cons c rest =>
    obtain ⟨h1, h2, h3, _⟩ := digit_facts c (h c (List.mem_cons_self _ _))
    have hdw : (c :: rest).dropWhile isSpace = c :: rest := by
      simp [List.dropWhile, h1]
    unfold atol
    rw [hdw]
    split
    · rename_i heq; simp at heq; exact absurd heq.1 h2
    · rename_i heq; simp at heq; exact absurd heq.1 h3
    · rw [hd]; rfl

/-- Saturation leaves a value within the range of `int` unchanged. -/
theorem clampInt_of_le (n : Nat) (h : (n : Int) ≤ INT_MAX) : clampInt n = n := by
  unfold clampInt
  have : ¬ ((n : Int) > INT_MAX) := by omega
  have h2 : ¬ ((n : Int) < INT_MIN) := by unfold INT_MIN; omega
  simp [this, h2]

theorem decimalValue_snoc (cs : List Char) (d : Char) :
    decimalValue (cs ++ [d]) = decimalValue cs * 10 + digitValue d := by
  simp [decimalValue, List.foldl_append]

/-- The accumulator of `utoaDigits` is a suffix of its result. -/
theorem utoaDigits_acc (fuel : Nat) :
    ∀ (n : Nat) (acc : List Char), utoaDigits fuel n acc = utoaDigits fuel n [] ++ acc := by
  induction fuel with
  | zero => intro n acc; simp [utoaDigits]
  | succ f ih =>
    intro n acc
    simp only [utoaDigits]
    split
    · simp
    · rw [ih _ (_ :: acc), ih _ [_]]; simp

/-- Any fuel above the number gives `utoaDigits` the same result. -/
theorem utoaDigits_fuel (n : Nat) :
    ∀ (f1 f2 : Nat) (acc : List Char), n < f1 → n < f2 →
      utoaDigits f1 n acc = utoaDigits f2 n acc := by
  induction n using Nat.strong_induction_on with
  | _ n ih =>
    intro f1 f2 acc h1 h2
    obtain ⟨g1, rfl⟩ : ∃ g, f1 = g + 1 := ⟨f1 - 1, by omega⟩
    obtain ⟨g2, rfl⟩ : ∃ g, f2 = g + 1 := ⟨f2 - 1, by omega⟩
    simp only [utoaDigits]
    split
    · rfl
    · exact ih (n / 10) (by omega) g1 g2 _ (by omega) (by omega)

theorem decimalValue_pos (cs : List Char) (hne : cs ≠ [])
    (hd : ∀ c ∈ cs, isDigit c = true) (hz : cs.head? ≠ some '0') : 0 < decimalValue cs := by
  induction cs using List.reverseRecOn with
  | nil => exact absurd rfl hne
  | append_singleton init d ih =>
    rw [decimalValue_snoc]
    cases init with
    | nil =>
      have hd0 : d ≠ '0' := by simpa using hz
      have := (digit_facts d (hd d (by simp))).2.2.2.2.2 hd0
      simpa [decimalValue] using this
    | cons a as =>
      have := ih (by simp) (fun c hc => hd c (by simp at hc ⊢; tauto)) (by simpa using hz)
      omega

/-- Printing the value of a canonical decimal gives the decimal back. -/
theorem utoa_roundtrip (cs : List Char) (hc : isCanonicalDecimal cs) :
    utoaDigits (decimalValue cs + 1) (decimalValue cs) [] = cs := by
  obtain ⟨hne, hd, hz⟩ := hc
  induction cs using List.reverseRecOn with
  | nil => exact absurd rfl hne
  | append_singleton init d ih =>
    have hdd := digit_facts d (hd d (by simp))
    rw [decimalValue_snoc]
    cases init with
    | nil =>
      simp only [decimalValue, List.foldl_nil, Nat.zero_mul, Nat.zero_add, List.nil_append]
      simp [utoaDigits, hdd.2.2.2.1, hdd.2.2.2.2.1]
    | cons a as =>
      have hhead : (a :: as).head? ≠ some '0' := by
        intro h
        have := hz (by simpa using h)
        simp at this
      have hdi : ∀ c ∈ a :: as, isDigit c = true := fun c hc => hd c (by simp at hc ⊢; tauto)
      have hpos := decimalValue_pos (a :: as) (by simp) hdi hhead
      have ih2 := ih (by simp) hdi (fun h => absurd h hhead)
      have hlt : ¬ (decimalValue (a :: as) * 10 + digitValue d < 10) := by omega
      have hdiv : (decimalValue (a :: as) * 10 + digitValue d) / 10 = decimalValue (a :: as) := by
        have := hdd.2.2.2.1; omega
      have hmod : (decimalValue (a :: as) * 10 + digitValue d) % 10 = digitValue d := by
        have := hdd.2.2.2.1; omega
      simp only [utoaDigits, hlt, if_false, hdiv, hmod, hdd.2.2.2.2.1]
      rw [utoaDigits_acc, utoaDigits_fuel _ _ (decimalValue (a :: as) + 1) [] (by omega) (by omega),
        ih2]

theorem parseOID_components_length (s : String) : (parseOID s).components.length = 20 := by
  rw [parseOID_components]
  simp

theorem take_seven_iff (cs : List Int) (h : 7 ≤ cs.length) :
    cs.take 7 = [1, 3, 6, 1, 4, 1, 61026] ↔
      (cs.getD 0 0 = 1 ∧ cs.getD 1 0 = 3 ∧ cs.getD 2 0 = 6 ∧ cs.getD 3 0 = 1 ∧
        cs.getD 4 0 = 4 ∧ cs.getD 5 0 = 1 ∧ cs.getD 6 0 = 61026) := by
  rcases cs with _ | ⟨a0, _ | ⟨a1, _ | ⟨a2, _ | ⟨a3, _ | ⟨a4, _ | ⟨a5, _ | ⟨a6, r⟩⟩⟩⟩⟩⟩⟩
  all_goals simp at h
  simp

theorem components_digits (s : String) (hv : validateOIDFormat s = true) (i : Nat)
    (hi : i < (dotComponents s).length) :
    ∀ c ∈ (dotComponents s).getD i [], isDigit c = true := by
  have := (validateOIDFormat_iff_components s).1 hv ((dotComponents s)[i]) (List.getElem_mem _)
  rw [List.getD_eq_getElem?_getD, List.getElem?_eq_getElem hi]
  exact this.2

/-- Splitting at the last dot: the dot-free text after it is the last
component. -/
theorem splitOn_snoc (p last : List Char) (hl : ∀ c ∈ last, c ≠ '.') :
    (p ++ '.' :: last).splitOn '.' = p.splitOn '.' ++ [last] := by
  induction p with
  | nil => rw [List.nil_append, splitOn_cons_dot, split_no_dot last hl]; rfl
  | cons c rest ih =>
    by_cases hdot : c = '.'
    · subst hdot
      rw [List.cons_append, splitOn_cons_dot, splitOn_cons_dot, ih]; rfl
    · obtain ⟨h, t, hr⟩ : ∃ h t, rest.splitOn '.' = h :: t :=
        List.exists_cons_of_ne_nil (splitOn_ne_nil rest)
      rw [List.cons_append, splitOn_cons_ne c _ h (t ++ [last]) hdot (by rw [ih, hr]; rfl),
        splitOn_cons_ne c rest h t hdot hr]; rfl

/-- A text with a dot splits at its last dot. -/
theorem exists_last_dot (cs : List Char) (h : '.' ∈ cs) :
    ∃ p last, cs = p ++ '.' :: last ∧ ∀ c ∈ last, c ≠ '.' := by
  have hr : '.' ∈ cs.reverse := List.mem_reverse.2 h
  obtain ⟨as, bs, hab, hna⟩ := List.eq_append_cons_of_mem hr
  refine ⟨bs.reverse, as.reverse, ?_, ?_⟩
  · have := congrArg List.reverse hab
    simpa using this
  · intro c hc hcd
    subst hcd
    exact hna (List.mem_reverse.1 hc)

theorem lastIndexOfFrom_no_dot (last : List Char) (hl : ∀ c ∈ last, c ≠ '.') :
    ∀ (i : Nat) (best : Int), lastIndexOfFrom '.' last i best = best := by
  induction last with
  | nil => intro i best; rfl
  | cons c rest ih =>
    intro i best
    simp only [lastIndexOfFrom, hl c (List.mem_cons_self _ _), if_false]
    exact ih (fun x hx => hl x (List.mem_cons_of_mem _ hx)) _ _

/-- The scan of `lastIndexOf` finds the last dot. -/
theorem lastIndexOfFrom_snoc (p last : List Char) (hl : ∀ c ∈ last, c ≠ '.') :
    ∀ (i : Nat) (best : Int),
      lastIndexOfFrom '.' (p ++ '.' :: last) i best = ((i + p.length : Nat) : Int) := by
  induction p with
  | nil =>
    intro i best
    simp only [List.nil_append, lastIndexOfFrom, if_true, List.length_nil, Nat.add_zero]
    exact lastIndexOfFrom_no_dot last hl _ _
  | cons c rest ih =>
    intro i best
    rw [List.cons_append, lastIndexOfFrom, ih, List.length_cons]
    congr 1
    omega

/-- The parent of `p.last`, for a non-empty `p` and a dot-free `last`, is `p`. -/
theorem getParentOID_snoc (s : String) (p last : List Char) (hs : s.data = p ++ '.' :: last)
    (hl : ∀ c ∈ last, c ≠ '.') (hp : p ≠ []) : getParentOID s = ⟨p⟩ := by
  unfold getParentOID lastIndexOf
  rw [hs, lastIndexOfFrom_snoc p last hl]
  have hpos : 0 < p.length := List.length_pos.2 hp
  simp only [Nat.zero_add]
  rw [if_pos (by omega)]
  have := substring_pre s p ('.' :: last) 0 hs (by omega)
  apply String.ext
  simpa using this

/-- The decimal form of the value of a canonical decimal is that decimal. -/
theorem intToString_of_canonical (cs : List Char) (hc : isCanonicalDecimal cs) :
    intToString (decimalValue cs : Nat) = ⟨cs⟩ := by
  unfold intToString
  have h : ¬ (((decimalValue cs : Nat) : Int) < 0) := by omega
  rw [if_neg h]
  simp only [Int.natAbs_ofNat]
  rw [utoa_roundtrip cs hc]

/-- A text has one more component than it has dots. -/
theorem splitOn_length (cs : List Char) : (cs.splitOn '.').length = 1 + cs.count '.' := by
  induction cs with
  | nil => rfl
  | cons c rest ih =>
    by_cases hdot : c = '.'
    · subst hdot
      rw [splitOn_cons_dot, List.length_cons, ih, List.count_cons_self]
      omega
    · obtain ⟨h, t, hr⟩ : ∃ h t, rest.splitOn '.' = h :: t :=
        List.exists_cons_of_ne_nil (splitOn_ne_nil rest)
      rw [splitOn_cons_ne c rest h t hdot hr, List.count_cons_of_ne (Ne.symm hdot), ← ih, hr]
      rfl

/-- The digit loop of `atol` gives 0 on a text that does not start with a
digit. -/
theorem atolDigits_no_digit (ds : List Char) (h : ∀ c, ds.head? = some c → isDigit c = false) :
    atolDigits 0 ds = 0 := by
  cases ds with
  | nil => rfl
  | cons c rest =>
    have := h c rfl
    simp [atolDigits, this]

/-- On a text without leading numeric content `atol` is 0. -/
theorem atol_no_number (cs : List Char) (h : hasLeadingNumber cs = false) : atol cs = 0 := by
  have hd : ∀ c, (afterSign cs).head? = some c → isDigit c = false := by
    intro c hc
    unfold hasLeadingNumber at h
    rw [hc] at h
    exact h
  unfold afterSign at hd
  unfold atol
  split
  · rename_i ds heq
    rw [heq] at hd
    rw [atolDigits_no_digit ds hd]; rfl
  · rename_i ds heq
    rw [heq] at hd
    rw [atolDigits_no_digit ds hd]; rfl
  · rename_i ds h1 h2
    have : atolDigits 0 (List.dropWhile isSpace cs) = 0 := by
      apply atolDigits_no_digit
      intro c hc
      apply hd c
      split
      · rename_i ds2 heq; exact absurd heq (h1 ds2)
      · rename_i ds2 heq; exact absurd heq (h2 ds2)
      · exact hc
    rw [this]; rfl

/-! ## Lemmas on the document of `toJSON` -/

/-- C1 (as amended): for every string accepted by `validateOIDFormat` with
`k ≤ 20` dot-separated components, `parseOID` yields depth `k`, and every
arc whose component has a decimal value that fits an `int` (at most
`INT_MAX`) equals that value. -/
theorem parseOID_valid_arcs (s : String) (hv : validateOIDFormat s = true)
    (hk : (dotComponents s).length ≤ 20) :
    (parseOID s).depth = ((dotComponents s).length : Nat) ∧
    ∀ i, i < (dotComponents s).length →
      (decimalValue ((dotComponents s).getD i []) : Int) ≤ INT_MAX →
      (parseOID s).arc i = (decimalValue ((dotComponents s).getD i []) : Nat) := by
  refine ⟨?_, ?_⟩
  · rw [parseOID_depth, Nat.min_eq_right hk]
  · intro i hi hfit
    rw [parseOID_arc s i (by rw [Nat.min_eq_right hk]; exact hi),
      atol_of_digits _ (components_digits s hv i hi), clampInt_of_le _ hfit]

/-- Witness of C1 (as amended) at `"1.3.6.1.4.1.61026.4.3.1"`: the string is
accepted and has 10 components, so the depth is 10, and its seventh
component fits an `int`, so the arc at index 6 is 61026. -/
theorem parseOID_valid_arcs_witness :
    validateOIDFormat "1.3.6.1.4.1.61026.4.3.1" = true ∧
    (dotComponents "1.3.6.1.4.1.61026.4.3.1").length ≤ 20 ∧
    (parseOID "1.3.6.1.4.1.61026.4.3.1").depth = 10 ∧
    (decimalValue ((dotComponents "1.3.6.1.4.1.61026.4.3.1").getD 6 []) : Int) ≤ INT_MAX ∧
    (parseOID "1.3.6.1.4.1.61026.4.3.1").arc 6 = 61026 :=
  ⟨by decide, by decide,
    (parseOID_valid_arcs "1.3.6.1.4.1.61026.4.3.1" (by decide) (by decide)).1.trans
      (by decide),
    by decide,
    ((parseOID_valid_arcs "1.3.6.1.4.1.61026.4.3.1" (by decide) (by decide)).2 6
      (by decide) (by decide)).trans (by decide)⟩

/-- Counterexample to C1 as stated: `"2147483648"` is accepted by
`validateOIDFormat` and has one component, of decimal value `2147483648`,
but the arc `parseOID` stores is `2147483647`. -/
theorem parseOID_valid_arcs_counterexample :
    validateOIDFormat "2147483648" = true ∧
    (dotComponents "2147483648").length = 1 ∧
    decimalValue ((dotComponents "2147483648").getD 0 []) = 2147483648 ∧
    (parseOID "2147483648").arc 0 = 2147483647 ∧
    (parseOID "2147483648").arc 0 ≠
      (decimalValue ((dotComponents "2147483648").getD 0 []) : Nat) := by
  decide

/-- C2: `validateOIDFormat s` is true exactly when `s` is non-empty, each of
its characters is a decimal digit or `'.'`, its first character is a digit,
its last character is not `'.'` and no two `'.'` are adjacent; and exactly
when every dot-separated component of `s` is a non-empty run of digits. -/
theorem validateOIDFormat_spec (s : String) :
    (validateOIDFormat s = true ↔
      (s.data ≠ [] ∧
       (∀ c ∈ s.data, isDigit c = true ∨ c = '.') ∧
       (∃ c, s.data.head? = some c ∧ isDigit c = true) ∧
       s.data.getLast? ≠ some '.' ∧
       (∀ j, s.data[j]? = some '.' → s.data[j + 1]? ≠ some '.'))) ∧
    (validateOIDFormat s = true ↔
      ∀ comp ∈ dotComponents s, comp ≠ [] ∧ ∀ c ∈ comp, isDigit c = true) :=
  ⟨validateOIDFormat_iff s, validateOIDFormat_iff_components s⟩

/-- C3: `parseOID(s).isBrainSAIT` is true exactly when `parseOID(s)` has at
least seven arcs and its first seven arcs are `1,3,6,1,4,1,61026`; it is
false for every string with six or fewer components. -/
theorem parseOID_isBrainSAIT_iff (s : String) :
    ((parseOID s).isBrainSAIT = true ↔
      (7 ≤ (parseOID s).depth ∧
        (parseOID s).components.take 7 = [1, 3, 6, 1, 4, 1, 61026])) ∧
    ((dotComponents s).length ≤ 6 → (parseOID s).isBrainSAIT = false) := by
  have hf := (parseOID_flags s).1
  have ht := take_seven_iff (parseOID s).components (by rw [parseOID_components_length]; omega)
  refine ⟨?_, ?_⟩
  · rw [hf, ht]; rfl
  · intro hk
    have hd := parseOID_depth s
    cases hb : (parseOID s).isBrainSAIT with
    | false => rfl
    | true =>
      have := (hf.1 hb).1
      omega

/-- Witness of C3: a six-component string is outside the namespace, the
seven-component root is inside. -/
theorem parseOID_isBrainSAIT_iff_witness :
    (parseOID "1.3.6.1.4.1").isBrainSAIT = false ∧
    (parseOID "1.3.6.1.4.1.61026").isBrainSAIT = true :=
  ⟨(parseOID_isBrainSAIT_iff "1.3.6.1.4.1").2 (by decide), by decide⟩

/-- C4: for a string with more than 20 dot-separated components `parseOID`
stops at the capacity of the array: the depth is 20, the array still has
its 20 slots and they hold the conversions of the first 20 components in
order (the later components are stored nowhere), and `fullPath` is the whole
string. -/
theorem parseOID_truncates (s : String) (hk : 20 < (dotComponents s).length) :
    (parseOID s).depth = 20 ∧
    (parseOID s).components.length = 20 ∧
    (parseOID s).components =
      ((dotComponents s).take 20).map (fun comp => toInt (String.mk comp)) ∧
    (parseOID s).fullPath = s := by
  refine ⟨?_, parseOID_components_length s, ?_, parseOID_fullPath s⟩
  · rw [parseOID_depth, Nat.min_eq_left (by omega)]; rfl
  · rw [parseOID_components, Nat.min_eq_left (by omega)]
    simp only [Nat.sub_self, List.replicate_zero, List.append_nil]
    rfl

/-- Witness of C4 at a string of 22 components. -/
theorem parseOID_truncates_witness :
    20 < (dotComponents "1.2.3.4.5.6.7.8.9.10.11.12.13.14.15.16.17.18.19.20.21.22").length ∧
    (parseOID "1.2.3.4.5.6.7.8.9.10.11.12.13.14.15.16.17.18.19.20.21.22").depth = 20 ∧
    (parseOID "1.2.3.4.5.6.7.8.9.10.11.12.13.14.15.16.17.18.19.20.21.22").components =
      [1, 2, 3, 4, 5, 6, 7, 8, 9, 10, 11, 12, 13, 14, 15, 16, 17, 18, 19, 20] :=
  ⟨by decide,
    (parseOID_truncates "1.2.3.4.5.6.7.8.9.10.11.12.13.14.15.16.17.18.19.20.21.22"
      (by decide)).1,
    by decide⟩

/-- C5: with `o = parseOID(s)`, `getBranchName(o)` is `"Unknown"` when `o`
is not in the BrainSAIT namespace or has fewer than 8 arcs; otherwise the
8th arc is `o.branchType` and selects the label: 1, 2, 3, 4 give
`"Geographic Operations"`, `"Organization"`, `"Products & Services"`,
`"Infrastructure"`, every other value gives `"Unknown Branch"`. For
`"1.3.6.1.4.1.61026.4.3.1"` the branch type is 4 and the name is
`"Infrastructure"`. -/
theorem getBranchName_parseOID :
    (∀ s : String,
      (((parseOID s).isBrainSAIT = false ∨ (parseOID s).depth < 8) →
        getBranchName (parseOID s) = "Unknown") ∧
      (((parseOID s).isBrainSAIT = true ∧ 8 ≤ (parseOID s).depth) →
        ((parseOID s).branchType = (parseOID s).arc 7 ∧
         ((parseOID s).arc 7 = 1 → getBranchName (parseOID s) = "Geographic Operations") ∧
         ((parseOID s).arc 7 = 2 → getBranchName (parseOID s) = "Organization") ∧
         ((parseOID s).arc 7 = 3 → getBranchName (parseOID s) = "Products & Services") ∧
         ((parseOID s).arc 7 = 4 → getBranchName (parseOID s) = "Infrastructure") ∧
         (((parseOID s).arc 7 ≠ 1 ∧ (parseOID s).arc 7 ≠ 2 ∧ (parseOID s).arc 7 ≠ 3 ∧
            (parseOID s).arc 7 ≠ 4) → getBranchName (parseOID s) = "Unknown Branch")))) ∧
    (parseOID "1.3.6.1.4.1.61026.4.3.1").branchType = 4 ∧
    getBranchName (parseOID "1.3.6.1.4.1.61026.4.3.1") = "Infrastructure" := by
  refine ⟨fun s => ⟨?_, ?_⟩, by decide, by decide⟩
  · intro h
    unfold getBranchName
    rcases h with h | h
    · simp [h]
    · simp [h]
  · rintro ⟨hb, hd⟩
    have hbt := (parseOID_flags s).2
    have hgt : (parseOID s).depth > 7 := by omega
    rw [if_pos ⟨hb, hgt⟩] at hbt
    have hnd : ¬ (parseOID s).depth < 8 := by omega
    refine ⟨hbt, ?_, ?_, ?_, ?_, ?_⟩
    · intro h; simp [getBranchName, hb, hnd, hbt, h]
    · intro h; simp [getBranchName, hb, hnd, hbt, h]
    · intro h; simp [getBranchName, hb, hnd, hbt, h]
    · intro h; simp [getBranchName, hb, hnd, hbt, h]
    · rintro ⟨h1, h2, h3, h4⟩; simp [getBranchName, hb, hnd, hbt, h1, h2, h3, h4]

/-- C6: with `o = parseOID(s)`: when `o.branchType` is 3, `o` has at least
10 arcs and `components[8]` is 2, `getHealthcareService(o)` is
`"AI Normalizer Service"`, `"Signer Microservice"` or `"NPHIES Connector"`
for `components[9]` equal to 1, 2 or 3; when that precondition fails the
result is the empty string. For `"1.3.6.1.4.1.61026.3.2.1"` the service is
`"AI Normalizer Service"` and the product sub-branch `"Healthcare
Platform"`. -/
theorem getHealthcareService_parseOID :
    (∀ s : String,
      (((parseOID s).branchType = 3 ∧ 10 ≤ (parseOID s).depth ∧ (parseOID s).arc 8 = 2) →
        (((parseOID s).arc 9 = 1 →
            getHealthcareService (parseOID s) = "AI Normalizer Service") ∧
         ((parseOID s).arc 9 = 2 →
            getHealthcareService (parseOID s) = "Signer Microservice") ∧
         ((parseOID s).arc 9 = 3 →
            getHealthcareService (parseOID s) = "NPHIES Connector"))) ∧
      (((parseOID s).branchType ≠ 3 ∨ (parseOID s).arc 8 ≠ 2 ∨ (parseOID s).depth < 10) →
        getHealthcareService (parseOID s) = "")) ∧
    getHealthcareService (parseOID "1.3.6.1.4.1.61026.3.2.1") = "AI Normalizer Service" ∧
    getProductSubBranch (parseOID "1.3.6.1.4.1.61026.3.2.1") = "Healthcare Platform" := by
  refine ⟨fun s => ⟨?_, ?_⟩, by decide, by decide⟩
  · rintro ⟨hbt, hd, h8⟩
    have hflag := (parseOID_flags s).2
    have hb : (parseOID s).isBrainSAIT = true := by
      by_contra hn
      rw [if_neg (fun h => hn h.1), hbt] at hflag
      omega
    have hnd : ¬ (parseOID s).depth < 10 := by omega
    refine ⟨?_, ?_, ?_⟩
    · intro h; simp [getHealthcareService, hb, hnd, hbt, h8, h]
    · intro h; simp [getHealthcareService, hb, hnd, hbt, h8, h]
    · intro h; simp [getHealthcareService, hb, hnd, hbt, h8, h]
  · intro h
    unfold getHealthcareService
    rcases h with h | h | h
    · simp [h]
    · split_ifs <;> rfl
    · simp [h]

/-- C7 (as amended): every classification lookup that does not return one
of its table labels returns one of `"Unknown"`, `"Unknown Branch"`,
`"Unknown Branch/Service"`, `"Unknown Product"`, `"Unknown Service"` or the
empty string. -/
theorem lookups_return_label_or_sentinel (o : OID) :
    (getBranchName o ∉ branchLabels → getBranchName o ∈ allSentinels) ∧
    (getProductSubBranch o ∉ productLabels → getProductSubBranch o ∈ allSentinels) ∧
    (getHealthcareService o ∉ serviceLabels → getHealthcareService o ∈ allSentinels) ∧
    (getRegistrationAuthority o ∉ authorityLabels →
      getRegistrationAuthority o ∈ allSentinels) := by
  refine ⟨?_, ?_, ?_, ?_⟩
  · unfold getBranchName; split_ifs <;> decide
  · unfold getProductSubBranch; split_ifs <;> decide
  · unfold getHealthcareService; split_ifs <;> decide
  · unfold getRegistrationAuthority; split_ifs <;> decide

/-- Witness of C7 (as amended): the lookups on
`parseOID("1.3.6.1.4.1.61026.3.9")`. -/
theorem lookups_return_label_or_sentinel_witness :
    getBranchName (parseOID "1.3.6.1.4.1.61026.3.9") ∈ branchLabels ∧
    getProductSubBranch (parseOID "1.3.6.1.4.1.61026.3.9") ∈ allSentinels ∧
    getHealthcareService (parseOID "1.3.6.1.4.1.61026.3.9") ∈ allSentinels ∧
    getRegistrationAuthority (parseOID "1.3.6.1.4.1.61026.3.9") ∈ authorityLabels :=
  ⟨by decide,
   (lookups_return_label_or_sentinel (parseOID "1.3.6.1.4.1.61026.3.9")).2.1 (by decide),
   (lookups_return_label_or_sentinel (parseOID "1.3.6.1.4.1.61026.3.9")).2.2.1 (by decide),
   by decide⟩

/-- Counterexample to C7 as stated: for `"1.3.6.1.4.1.61026.3.9"`
`getProductSubBranch` returns `"Unknown Product"` and for
`"1.3.6.1.4.1.61026.3.2.9"` `getHealthcareService` returns
`"Unknown Service"`; neither is a table label or one of the four listed
sentinel values. -/
theorem lookups_listed_sentinels_counterexample :
    getProductSubBranch (parseOID "1.3.6.1.4.1.61026.3.9") = "Unknown Product" ∧
    getProductSubBranch (parseOID "1.3.6.1.4.1.61026.3.9") ∉ productLabels ∧
    getProductSubBranch (parseOID "1.3.6.1.4.1.61026.3.9") ∉ listedSentinels ∧
    getHealthcareService (parseOID "1.3.6.1.4.1.61026.3.2.9") = "Unknown Service" ∧
    getHealthcareService (parseOID "1.3.6.1.4.1.61026.3.2.9") ∉ serviceLabels ∧
    getHealthcareService (parseOID "1.3.6.1.4.1.61026.3.2.9") ∉ listedSentinels := by
  decide

/-- C8 at its failing inputs: `"1.3.6.1.4.1.610260"` is accepted by
`validateOIDFormat` and passes the prefix test of `isBrainSAITOID`, yet
`parseOID` classifies it outside the namespace (its seventh arc is 610260);
`"1.3.6.1.4.1.061026"` is accepted, fails the prefix test, and `parseOID`
classifies it inside the namespace. -/
theorem isBrainSAITOID_disagrees_with_parseOID :
    (validateOIDFormat "1.3.6.1.4.1.610260" = true ∧
      isBrainSAITOID "1.3.6.1.4.1.610260" = true ∧
      (parseOID "1.3.6.1.4.1.610260").isBrainSAIT = false) ∧
    (validateOIDFormat "1.3.6.1.4.1.061026" = true ∧
      isBrainSAITOID "1.3.6.1.4.1.061026" = false ∧
      (parseOID "1.3.6.1.4.1.061026").isBrainSAIT = true) := by
  decide

/-- C9: for a string accepted by `validateOIDFormat` with between 2 and 20
components whose last component is the canonical decimal form of a value
that fits an `int`, `getParentOID(s)` is the part of `s` before its last
`'.'` (that is, `s` is `getParentOID(s)`, a dot, and the dot-free last
component), and `createChildOID` applied to it and to the last arc of
`parseOID(s)` gives `s` back. -/
theorem parent_child_roundtrip (s : String) (hv : validateOIDFormat s = true)
    (h2 : 2 ≤ (dotComponents s).length) (h20 : (dotComponents s).length ≤ 20)
    (hcanon : isCanonicalDecimal ((dotComponents s).getLastD []))
    (hfit : (decimalValue ((dotComponents s).getLastD []) : Int) ≤ INT_MAX) :
    ((getParentOID s).data ++ '.' :: (dotComponents s).getLastD [] = s.data ∧
      '.' ∉ (dotComponents s).getLastD []) ∧
    createChildOID (getParentOID s)
      ((parseOID s).arc ((parseOID s).depth.toNat - 1)) = s := by
  have hmem : '.' ∈ s.data := by
    by_contra hn
    have : dotComponents s = [s.data] :=
      split_no_dot s.data (fun c hc hcd => hn (hcd ▸ hc))
    rw [this] at h2
    simp at h2
  obtain ⟨p, last, hs, hl⟩ := exists_last_dot s.data hmem
  have hsplit : dotComponents s = p.splitOn '.' ++ [last] := by
    unfold dotComponents; rw [hs]; exact splitOn_snoc p last hl
  have hlast : (dotComponents s).getLastD [] = last := by
    rw [hsplit]; simp [List.getLastD_eq_getLast?]
  have hp : p ≠ [] := by
    rintro rfl
    obtain ⟨_, _, ⟨c, hc1, hc2⟩, _⟩ := (validateOIDFormat_iff s).1 hv
    rw [hs] at hc1
    simp at hc1
    exact isDigit_ne_dot c hc2 hc1.symm
  have hparent := getParentOID_snoc s p last hs hl hp
  rw [hlast] at hcanon hfit ⊢
  have hdepth := parseOID_depth s
  rw [Nat.min_eq_right h20] at hdepth
  have hidx : (parseOID s).depth.toNat - 1 = (p.splitOn '.').length := by
    rw [hdepth, hsplit]; simp
  have harc : (parseOID s).arc ((parseOID s).depth.toNat - 1) = (decimalValue last : Nat) := by
    rw [hidx, parseOID_arc s _ (by rw [Nat.min_eq_right h20, hsplit]; simp)]
    have hget : (dotComponents s).getD (p.splitOn '.').length [] = last := by
      rw [hsplit, List.getD_eq_getElem?_getD, List.getElem?_append_right (le_refl _)]
      simp
    rw [hget, atol_of_digits last hcanon.2.1, clampInt_of_le _ hfit]
  refine ⟨⟨?_, fun h => hl _ h rfl⟩, ?_⟩
  · rw [hparent, hs]
  · rw [harc, hparent]
    unfold createChildOID
    rw [intToString_of_canonical last hcanon]
    apply String.ext
    rw [hs]
    simp [String.data_append]

/-- Witness of C9 at `"1.3.6.1.4.1.61026.4.3.1"`: the parent is
`"1.3.6.1.4.1.61026.4.3"`, the last arc is 1, and the child built from them
is the original string. -/
theorem parent_child_roundtrip_witness :
    getParentOID "1.3.6.1.4.1.61026.4.3.1" = "1.3.6.1.4.1.61026.4.3" ∧
    (parseOID "1.3.6.1.4.1.61026.4.3.1").arc
      ((parseOID "1.3.6.1.4.1.61026.4.3.1").depth.toNat - 1) = 1 ∧
    createChildOID (getParentOID "1.3.6.1.4.1.61026.4.3.1")
      ((parseOID "1.3.6.1.4.1.61026.4.3.1").arc
        ((parseOID "1.3.6.1.4.1.61026.4.3.1").depth.toNat - 1)) =
      "1.3.6.1.4.1.61026.4.3.1" :=
  ⟨by decide, by decide,
    (parent_child_roundtrip "1.3.6.1.4.1.61026.4.3.1" (by decide) (by decide) (by decide)
      (by unfold isCanonicalDecimal; decide) (by decide)).2⟩

/-- C11 (as amended): for the empty string `validateOIDFormat` is false,
`parseOID` yields depth 1 (the single empty component, stored as the arc 0)
and `isBrainSAIT` is false. -/
theorem parseOID_empty :
    validateOIDFormat "" = false ∧
    (parseOID "").depth = 1 ∧
    (parseOID "").arc 0 = 0 ∧
    (parseOID "").isBrainSAIT = false := by
  decide

/-- Counterexample to C11 as stated: the depth of `parseOID("")` is 1, not
0. -/
theorem parseOID_empty_depth_counterexample :
    (parseOID "").depth = 1 ∧ (parseOID "").depth ≠ 0 := by
  decide

/-- C12: for every string, valid or not, the depth of `parseOID(s)` is the
smaller of 20 and one more than the number of `'.'` in `s`; so the depth is
at least 1, and a string without `'.'` yields exactly one arc, the
conversion of the whole string, which is 0 when the string has no leading
numeric content. -/
theorem parseOID_depth_formula (s : String) :
    (parseOID s).depth = (min 20 (1 + s.data.count '.') : Nat) ∧
    1 ≤ (parseOID s).depth ∧
    ('.' ∉ s.data →
      ((parseOID s).depth = 1 ∧ (parseOID s).arc 0 = toInt s ∧
        (hasLeadingNumber s.data = false → (parseOID s).arc 0 = 0))) := by
  have hd := parseOID_depth s
  have hlen : (dotComponents s).length = 1 + s.data.count '.' := splitOn_length s.data
  rw [hlen] at hd
  refine ⟨hd, by omega, ?_⟩
  intro hno
  have hcount : s.data.count '.' = 0 := List.count_eq_zero.2 hno
  have hsplit : dotComponents s = [s.data] :=
    split_no_dot s.data (fun c hc hcd => hno (hcd ▸ hc))
  have harc : (parseOID s).arc 0 = toInt s := by
    rw [parseOID_arc s 0 (by rw [hsplit]; simp), hsplit]
    rfl
  refine ⟨by rw [hd, hcount]; rfl, harc, ?_⟩
  intro hnum
  rw [harc]
  exact atol_no_number s.data hnum

/-- Witness of C12: `"abc"` has no `'.'` and no leading numeric content, so
it yields the single arc 0; `"a..b"` has two dots and yields depth 3. -/
theorem parseOID_depth_formula_witness :
    (parseOID "abc").depth = 1 ∧ (parseOID "abc").arc 0 = 0 ∧
    (parseOID "a..b").depth = 3 :=
  ⟨((parseOID_depth_formula "abc").2.2 (by decide)).1,
    ((parseOID_depth_formula "abc").2.2 (by decide)).2.2 (by decide),
    (parseOID_depth_formula "a..b").1.trans (by decide)⟩

end OidUtils
